import Mathlib

/-!
Verification of the filter and projection subsystem of the reana-client-go
command-line client, shallowly embedded from the Go sources.

Embedded source functions:
- FormatData, ParseFilterParameters, GetRunStatuses, HasAnyPrefix and
  FilesBlacklist from utils/utils.go;
- filterJobLogs and displayHumanFriendlyLogs from cmd/logs.go;
- displayDuPayload from the disk-usage command file.
-/

namespace ReanaClient

/-! ## Cells of tabular data

Go table cells have type any and are compared after fmt.Sprint; the cells
actually stored are strings and integers. -/

inductive Cell where
  | str : String → Cell
  | int : Int → Cell
deriving DecidableEq, Repr, Inhabited

/-- fmt.Sprint of a cell value. -/
def cellSprint : Cell → String
  | .str s => s
  | .int n => toString n

/-- strings.ToLower, embedded character-wise (filter keys and backend aliases
are ASCII, where the Go and Lean character lowerings agree). -/
def strToLower (s : String) : String := String.mk (s.data.map Char.toLower)

/-! ## Column Projector: FormatData (utils/utils.go)

The Go rule set is a map from column name to filter value; it is embedded as
an association list queried with first-match lookup (a Go map has unique
keys, so first-match lookup is exact). -/

abbrev FormatRules := List (String × String)

/-- Lookup of a column name in the rule map (comma-ok map index in Go). -/
def rulesLookup (rules : FormatRules) (name : String) : Option String :=
  match rules with
  | [] => none
  | (k, v) :: rest => if k = name then some v else rulesLookup rest name

/-- The loop body of FormatData, iterating the column cursor over a header and
row matrix that shrink in place.  A removed column decrements the cursor in Go
(the cursor stays on the same index here); a retained column with a non-empty
filter removes the rows whose stringified cell differs from the filter (the
row loop with its own decrement is a filter), then the cursor advances. -/
def formatStep (rules : FormatRules) (header : List String)
    (rows : List (List Cell)) (col : Nat) : List String × List (List Cell) :=
  if hc : col < header.length then
    match rulesLookup rules (header.get ⟨col, hc⟩) with
    | none =>
        formatStep rules (header.eraseIdx col)
          (rows.map (fun r => r.eraseIdx col)) col
    | some filter =>
        formatStep rules header
          (if filter = "" then rows
           else rows.filter (fun r => cellSprint (r.getD col default) = filter))
          (col + 1)
  else
    (header, rows)
termination_by header.length - col
decreasing_by
  · simp only [List.length_eraseIdx, hc, if_pos]
    omega
  · omega

/-- FormatData from utils/utils.go: returns the header and data unchanged when
the rule map is empty, otherwise runs the column loop from index 0. -/
def FormatData (rules : FormatRules) (header : List String)
    (rows : List (List Cell)) : List String × List (List Cell) :=
  if rules.isEmpty then (header, rows) else formatStep rules header rows 0

/-! ## Spec-side description of the Column Projector

These definitions follow the words of the specification (the header
restricted, in original order, to the columns named in the rule set; the rows
restricted to those whose stringified cell in every retained column with a
non-empty rule value equals that value, with cells removed at the same
positional indices); they exist to be compared with FormatData. -/

/-- The header restricted, in original order, to the columns named in the
rule set. -/
def projectedHeader (rules : FormatRules) (header : List String) : List String :=
  header.filter (fun h => (rulesLookup rules h).isSome)

/-- Whether a row passes every non-empty rule value of a retained column,
matching cells to columns positionally. -/
def rowPasses (rules : FormatRules) : List String → List Cell → Bool
  | [], _ => true
  | _ :: _, [] => true
  | h :: hs, c :: cs =>
      (match rulesLookup rules h with
       | none => true
       | some filter => filter = "" ∨ cellSprint c = filter : Bool)
      && rowPasses rules hs cs

/-- The cells of a row restricted to the positions of retained columns; cells
beyond the header length are untouched (as in the Go loop, which only visits
indices below the header length). -/
def selectCells (rules : FormatRules) : List String → List Cell → List Cell
  | [], cs => cs
  | _ :: _, [] => []
  | h :: hs, c :: cs =>
      if (rulesLookup rules h).isSome then c :: selectCells rules hs cs
      else selectCells rules hs cs

/-- The row matrix described by the spec: rows failing some retained non-empty
rule removed, and each surviving row's cells restricted to retained columns. -/
def projectedRows (rules : FormatRules) (header : List String)
    (rows : List (List Cell)) : List (List Cell) :=
  (rows.filter (rowPasses rules header)).map (selectCells rules header)

example : FormatData [("B", "")] ["A", "B", "C"]
    [[.int 1, .int 2, .int 3], [.int 4, .int 5, .int 6]]
    = (["B"], [[.int 2], [.int 5]]) := by
  simp [FormatData, formatStep, rulesLookup, cellSprint]

example : FormatData [("NAME", ""), ("STATUS", "failed")] ["NAME", "STATUS"]
    [[.str "x", .str "failed"], [.str "y", .str "finished"]]
    = (["NAME", "STATUS"], [[.str "x", .str "failed"]]) := by
  simp [FormatData, formatStep, rulesLookup, cellSprint]

example : projectedRows [("B", "")] ["A", "B", "C"]
    [[.int 1, .int 2, .int 3], [.int 4, .int 5, .int 6]]
    = [[.int 2], [.int 5]] := by decide

/-! ## List helper lemmas -/

theorem take_eraseIdx_eq {α : Type} : ∀ (l : List α) (i : Nat),
    (l.eraseIdx i).take i = l.take i
  | [], _ => by simp
  | _ :: _, 0 => by simp
  | a :: t, i + 1 => by simp [take_eraseIdx_eq t i]

theorem drop_eraseIdx_eq {α : Type} : ∀ (l : List α) (i : Nat),
    (l.eraseIdx i).drop i = l.drop (i + 1)
  | [], _ => by simp
  | _ :: _, 0 => by simp
  | a :: t, i + 1 => by simpa using drop_eraseIdx_eq t i

theorem drop_eq_get_cons {α : Type} : ∀ (l : List α) (i : Nat) (h : i < l.length),
    l.drop i = l.get ⟨i, h⟩ :: l.drop (i + 1)
  | _ :: _, 0, _ => by simp
  | a :: t, i + 1, h => by simpa using drop_eq_get_cons t i (Nat.lt_of_succ_lt_succ h)

theorem take_succ_get {α : Type} : ∀ (l : List α) (i : Nat) (h : i < l.length),
    l.take (i + 1) = l.take i ++ [l.get ⟨i, h⟩]
  | _ :: _, 0, _ => by simp
  | a :: t, i + 1, h => by
      rw [List.take_succ_cons, List.take_succ_cons,
        take_succ_get t i (Nat.lt_of_succ_lt_succ h)]
      rfl

theorem getD_eq_get {α : Type} : ∀ (l : List α) (i : Nat) (d : α) (h : i < l.length),
    l.getD i d = l.get ⟨i, h⟩
  | _ :: _, 0, _, _ => rfl
  | a :: t, i + 1, d, h => by
      simp only [List.getD_cons_succ]
      exact getD_eq_get t i d (Nat.lt_of_succ_lt_succ h)

theorem filter_map_of_map {α β : Type} (e : α → α) (P P' : α → Bool) (F F' : α → β) :
    ∀ (l : List α), (∀ r ∈ l, P' (e r) = P r) → (∀ r ∈ l, F' (e r) = F r) →
    ((l.map e).filter P').map F' = (l.filter P).map F := by
  intro l
  induction l with
  | nil => intro _ _; rfl
  | cons a t ih =>
    intro hP hF
    have hPa := hP a (List.mem_cons_self a t)
    have hFa := hF a (List.mem_cons_self a t)
    have ih' := ih (fun r hr => hP r (List.mem_cons_of_mem a hr))
      (fun r hr => hF r (List.mem_cons_of_mem a hr))
    simp only [List.map_cons, List.filter_cons, hPa]
    cases hpa : P a
    · simpa [hpa] using ih'
    · simp [hpa, hFa, ih']

theorem filter_map_congr {α β : Type} (P P' : α → Bool) (F F' : α → β)
    (l : List α) (hP : ∀ r ∈ l, P' r = P r) (hF : ∀ r ∈ l, F' r = F r) :
    (l.filter P').map F' = (l.filter P).map F := by
  have := filter_map_of_map id P P' F F' l (by simpa using hP) (by simpa using hF)
  simpa using this

theorem filter_filter_map_congr {α β : Type} (R Q' Q : α → Bool) (G' G : α → β) :
    ∀ (l : List α), (∀ r ∈ l, Q r = (R r && Q' r)) → (∀ r ∈ l, G' r = G r) →
    ((l.filter R).filter Q').map G' = (l.filter Q).map G := by
  intro l
  induction l with
  | nil => intro _ _; rfl
  | cons a t ih =>
    intro hQ hG
    have hQa := hQ a (List.mem_cons_self a t)
    have hGa := hG a (List.mem_cons_self a t)
    have ih' := ih (fun r hr => hQ r (List.mem_cons_of_mem a hr))
      (fun r hr => hG r (List.mem_cons_of_mem a hr))
    rw [List.filter_cons, List.filter_cons, hQa]
    cases hra : R a
    · rw [Bool.false_and, if_neg Bool.false_ne_true, if_neg Bool.false_ne_true]
      exact ih'
    · rw [Bool.true_and, if_pos rfl, List.filter_cons]
      cases hqa : Q' a
      · rw [if_neg Bool.false_ne_true, if_neg Bool.false_ne_true]
        exact ih'
      · rw [if_pos rfl, if_pos rfl, List.map_cons, List.map_cons, hGa, ih']

/-! ## The loop invariant of FormatData -/

/-- Equation lemmas for the spec-side functions on a cons header, phrased with
an opaque head so that rewriting does not interact with get/drop simp lemmas. -/
theorem projectedHeader_cons_none (rules : FormatRules) (x : String)
    (t : List String) (hx : rulesLookup rules x = none) :
    projectedHeader rules (x :: t) = projectedHeader rules t := by
  simp [projectedHeader, List.filter_cons, hx]

theorem projectedHeader_cons_some (rules : FormatRules) (x : String)
    (t : List String) (f : String) (hx : rulesLookup rules x = some f) :
    projectedHeader rules (x :: t) = x :: projectedHeader rules t := by
  simp [projectedHeader, List.filter_cons, hx]

theorem rowPasses_cons_none (rules : FormatRules) (x : String) (hs : List String)
    (c : Cell) (cs : List Cell) (hx : rulesLookup rules x = none) :
    rowPasses rules (x :: hs) (c :: cs) = rowPasses rules hs cs := by
  simp [rowPasses, hx]

theorem rowPasses_cons_some (rules : FormatRules) (x : String) (hs : List String)
    (c : Cell) (cs : List Cell) (f : String) (hx : rulesLookup rules x = some f) :
    rowPasses rules (x :: hs) (c :: cs)
      = ((decide (f = "") || decide (cellSprint c = f)) && rowPasses rules hs cs) := by
  simp [rowPasses, hx]

theorem selectCells_cons_none (rules : FormatRules) (x : String) (hs : List String)
    (c : Cell) (cs : List Cell) (hx : rulesLookup rules x = none) :
    selectCells rules (x :: hs) (c :: cs) = selectCells rules hs cs := by
  simp [selectCells, hx]

theorem selectCells_cons_some (rules : FormatRules) (x : String) (hs : List String)
    (c : Cell) (cs : List Cell) (f : String) (hx : rulesLookup rules x = some f) :
    selectCells rules (x :: hs) (c :: cs) = c :: selectCells rules hs cs := by
  simp [selectCells, hx]

/-- Invariant characterisation of the FormatData column loop: starting at
cursor position col, the columns before col are untouched, the columns from
col on are projected, and the rows are filtered and cell-selected on the
suffix from col. -/
theorem formatStep_eq (rules : FormatRules) (header : List String)
    (rows : List (List Cell)) (col : Nat)
    (hrows : ∀ r ∈ rows, r.length = header.length) :
    formatStep rules header rows col =
      (header.take col ++ projectedHeader rules (header.drop col),
       (rows.filter (fun r => rowPasses rules (header.drop col) (r.drop col))).map
         (fun r => r.take col ++ selectCells rules (header.drop col) (r.drop col))) := by
  revert hrows
  induction header, rows, col using formatStep.induct rules with
  | case1 header rows col h hnone ih =>
    intro hrows
    have hcolrow : ∀ r ∈ rows, col < r.length := fun r hr => (hrows r hr) ▸ h
    have hlen' : ∀ r ∈ rows.map (fun r => r.eraseIdx col),
        r.length = (header.eraseIdx col).length := by
      intro r hr
      rcases List.mem_map.mp hr with ⟨s, hs, rfl⟩
      simp [List.length_eraseIdx, h, hcolrow s hs, hrows s hs]
    have ih' := ih hlen'
    rw [formatStep.eq_def]
    simp only [dif_pos h, hnone]
    rw [ih']
    have hdrop : header.drop col = header.get ⟨col, h⟩ :: header.drop (col + 1) :=
      drop_eq_get_cons header col h
    simp only [Prod.mk.injEq]
    constructor
    · rw [take_eraseIdx_eq, drop_eraseIdx_eq, hdrop,
        projectedHeader_cons_none rules _ _ hnone]
    · rw [drop_eraseIdx_eq header col]
      apply filter_map_of_map
      · intro s hs
        rw [drop_eraseIdx_eq s col, hdrop, drop_eq_get_cons s col (hcolrow s hs),
          rowPasses_cons_none rules _ _ _ _ hnone]
      · intro s hs
        rw [take_eraseIdx_eq s col, drop_eraseIdx_eq s col, hdrop,
          drop_eq_get_cons s col (hcolrow s hs),
          selectCells_cons_none rules _ _ _ _ hnone]
  | case2 header rows col h filter hsome ih =>
    intro hrows
    have hcolrow : ∀ r ∈ rows, col < r.length := fun r hr => (hrows r hr) ▸ h
    have hdrop : header.drop col = header.get ⟨col, h⟩ :: header.drop (col + 1) :=
      drop_eq_get_cons header col h
    have hlen' : ∀ r ∈ (if filter = "" then rows
        else rows.filter (fun r => cellSprint (r.getD col default) = filter)),
        r.length = header.length := by
      intro r hr
      apply hrows
      by_cases hf : filter = ""
      · simpa [hf] using hr
      · rw [if_neg hf] at hr
        exact (List.mem_filter.mp hr).1
    have ih' := ih hlen'
    rw [formatStep.eq_def]
    simp only [dif_pos h, hsome]
    refine ih'.trans ?_
    simp only [Prod.mk.injEq]
    constructor
    · rw [hdrop, projectedHeader_cons_some rules _ _ _ hsome,
        take_succ_get header col h, List.append_assoc, List.singleton_append]
    · by_cases hf : filter = ""
      · simp only [dif_pos hf, if_pos hf]
        apply filter_map_congr
        · intro r hr
          rw [hdrop, drop_eq_get_cons r col (hcolrow r hr),
            rowPasses_cons_some rules _ _ _ _ _ hsome, hf]
          simp
        · intro r hr
          rw [hdrop, drop_eq_get_cons r col (hcolrow r hr),
            selectCells_cons_some rules _ _ _ _ _ hsome,
            take_succ_get r col (hcolrow r hr), List.append_assoc,
            List.singleton_append]
      · simp only [dif_neg hf, if_neg hf]
        apply filter_filter_map_congr
        · intro r hr
          rw [hdrop, drop_eq_get_cons r col (hcolrow r hr),
            rowPasses_cons_some rules _ _ _ _ _ hsome,
            getD_eq_get r col default (hcolrow r hr)]
          simp [hf]
        · intro r hr
          rw [hdrop, drop_eq_get_cons r col (hcolrow r hr),
            selectCells_cons_some rules _ _ _ _ _ hsome,
            take_succ_get r col (hcolrow r hr), List.append_assoc,
            List.singleton_append]
  | case3 header rows col h =>
    intro hrows
    rw [formatStep.eq_def]
    simp only [dif_neg h]
    have hlen : header.length ≤ col := Nat.le_of_not_lt h
    have h1 : header.drop col = [] := List.drop_eq_nil_of_le hlen
    rw [h1]
    simp [projectedHeader, rowPasses, selectCells, List.take_of_length_le hlen,
      List.take_append_drop]

/-! ## Claim C1: FormatData equals the spec projection -/

/-- Claim C1: for every header, positionally aligned row matrix, and non-empty
rule set, FormatData produces exactly the header restricted in original order
to the columns named in the rule set, and the rows restricted to those whose
stringified cell in every retained column with a non-empty rule value equals
that value, with cells removed at the same positional indices as the removed
header columns; column and row removal never skip the next entry. -/
theorem FormatData_eq_projection (rules : FormatRules) (header : List String)
    (rows : List (List Cell)) (hne : rules ≠ [])
    (hrows : ∀ r ∈ rows, r.length = header.length) :
    FormatData rules header rows
      = (projectedHeader rules header, projectedRows rules header rows) := by
  unfold FormatData
  rw [if_neg (by simp [hne])]
  rw [formatStep_eq rules header rows 0 hrows]
  simp [projectedRows]

/-- Witness for C1 at the first concrete example of the claim. -/
theorem FormatData_eq_projection_witness :
    FormatData [("B", "")] ["A", "B", "C"]
      [[Cell.int 1, Cell.int 2, Cell.int 3], [Cell.int 4, Cell.int 5, Cell.int 6]]
      = (["B"], [[Cell.int 2], [Cell.int 5]]) := by
  have h := FormatData_eq_projection [("B", "")] ["A", "B", "C"]
    [[Cell.int 1, Cell.int 2, Cell.int 3], [Cell.int 4, Cell.int 5, Cell.int 6]]
    (by decide) (by decide)
  rw [h]
  decide

/-! ## Claim C6: idempotence of the Column Projector -/

theorem rowPasses_nil_right (rules : FormatRules) :
    ∀ (ys : List String), rowPasses rules ys [] = true := by
  intro ys; cases ys <;> rfl

theorem selectCells_length (rules : FormatRules) :
    ∀ (hs : List String) (cs : List Cell), cs.length = hs.length →
    (selectCells rules hs cs).length = (projectedHeader rules hs).length
  | [], cs, h => by
      have hc : cs = [] := List.length_eq_zero.mp h
      subst hc; rfl
  | x :: hs, [], h => by simp at h
  | x :: hs, c :: cs, h => by
      have h' : cs.length = hs.length := by simpa using h
      cases hx : rulesLookup rules x with
      | none =>
          rw [selectCells_cons_none rules _ _ _ _ hx,
            projectedHeader_cons_none rules _ _ hx]
          exact selectCells_length rules hs cs h'
      | some f =>
          rw [selectCells_cons_some rules _ _ _ _ _ hx,
            projectedHeader_cons_some rules _ _ _ hx]
          simp [selectCells_length rules hs cs h']

theorem selectCells_all_some (rules : FormatRules) :
    ∀ (hs : List String) (cs : List Cell),
    (∀ x ∈ hs, (rulesLookup rules x).isSome = true) →
    selectCells rules hs cs = cs
  | [], cs, _ => rfl
  | x :: hs, [], _ => rfl
  | x :: hs, c :: cs, hall => by
      obtain ⟨f, hf⟩ := Option.isSome_iff_exists.mp (hall x (by simp))
      rw [selectCells_cons_some rules _ _ _ _ _ hf,
        selectCells_all_some rules hs cs (fun y hy => hall y (by simp [hy]))]

theorem projectedHeader_idem (rules : FormatRules) (hs : List String) :
    projectedHeader rules (projectedHeader rules hs) = projectedHeader rules hs := by
  unfold projectedHeader
  rw [List.filter_eq_self]
  intro a ha
  exact (List.mem_filter.mp ha).2

theorem rowPasses_project (rules : FormatRules) :
    ∀ (hs : List String) (cs : List Cell), rowPasses rules hs cs = true →
    rowPasses rules (projectedHeader rules hs) (selectCells rules hs cs) = true
  | [], cs, _ => rfl
  | x :: hs, [], _ => by
      rw [show selectCells rules (x :: hs) [] = [] from rfl]
      exact rowPasses_nil_right rules _
  | x :: hs, c :: cs, h => by
      cases hx : rulesLookup rules x with
      | none =>
          rw [projectedHeader_cons_none rules _ _ hx,
            selectCells_cons_none rules _ _ _ _ hx]
          rw [rowPasses_cons_none rules _ _ _ _ hx] at h
          exact rowPasses_project rules hs cs h
      | some f =>
          rw [projectedHeader_cons_some rules _ _ _ hx,
            selectCells_cons_some rules _ _ _ _ _ hx,
            rowPasses_cons_some rules _ _ _ _ _ hx]
          rw [rowPasses_cons_some rules _ _ _ _ _ hx] at h
          have h1 := (Bool.and_eq_true _ _).mp h
          simp [h1.1, rowPasses_project rules hs cs h1.2]

/-- Claim C6: the Column Projector is idempotent: applying FormatData a second
time with the same rule set to the header and rows produced by the first
application changes nothing further (rows positionally aligned with the
header, which is the Table invariant of the data model). -/
theorem FormatData_idempotent (rules : FormatRules) (header : List String)
    (rows : List (List Cell)) (hrows : ∀ r ∈ rows, r.length = header.length) :
    FormatData rules (FormatData rules header rows).1 (FormatData rules header rows).2
      = FormatData rules header rows := by
  by_cases hne : rules = []
  · subst hne; simp [FormatData]
  · rw [FormatData_eq_projection rules header rows hne hrows]
    have hrows2 : ∀ r ∈ projectedRows rules header rows,
        r.length = (projectedHeader rules header).length := by
      intro r hr
      rcases List.mem_map.mp hr with ⟨s, hsf, rfl⟩
      exact selectCells_length rules header s (hrows s (List.mem_filter.mp hsf).1)
    rw [FormatData_eq_projection rules _ _ hne hrows2]
    simp only [Prod.mk.injEq]
    constructor
    · exact projectedHeader_idem rules header
    · unfold projectedRows
      have hall : ∀ x ∈ projectedHeader rules header,
          (rulesLookup rules x).isSome = true :=
        fun x hx => (List.mem_filter.mp hx).2
      have h2 : ∀ r ∈ (rows.filter (rowPasses rules header)).map
          (selectCells rules header),
          rowPasses rules (projectedHeader rules header) r = true := by
        intro r hr
        rcases List.mem_map.mp hr with ⟨s, hsf, rfl⟩
        exact rowPasses_project rules header s (List.mem_filter.mp hsf).2
      rw [List.filter_eq_self.mpr h2]
      have h4 : List.map (selectCells rules (projectedHeader rules header))
            ((rows.filter (rowPasses rules header)).map (selectCells rules header))
          = List.map id
            ((rows.filter (rowPasses rules header)).map (selectCells rules header)) :=
        List.map_congr_left (fun r _ => selectCells_all_some rules _ r hall)
      rw [h4, List.map_id]

/-- Witness for C6 at a concrete input. -/
theorem FormatData_idempotent_witness :
    FormatData [("STATUS", "failed")]
      (FormatData [("STATUS", "failed")] ["NAME", "STATUS"]
        [[Cell.str "x", Cell.str "failed"], [Cell.str "y", Cell.str "finished"]]).1
      (FormatData [("STATUS", "failed")] ["NAME", "STATUS"]
        [[Cell.str "x", Cell.str "failed"], [Cell.str "y", Cell.str "finished"]]).2
      = FormatData [("STATUS", "failed")] ["NAME", "STATUS"]
        [[Cell.str "x", Cell.str "failed"], [Cell.str "y", Cell.str "finished"]] :=
  FormatData_idempotent [("STATUS", "failed")] ["NAME", "STATUS"]
    [[Cell.str "x", Cell.str "failed"], [Cell.str "y", Cell.str "finished"]]
    (by decide)

/-! ## Job logs: filterJobLogs (cmd/logs.go)

A job-log Record is the jobLogItem struct; the Go code converts each Record
to a map from JSON property name to string value before comparing fields, so
field access is embedded as lookup by JSON name (absent name yields the empty
string, as a Go map read does). -/

structure JobLogItem where
  workflowUuid : String
  jobName : String
  computeBackend : String
  backendJobId : String
  dockerImg : String
  cmd : String
  status : String
  logs : String
  startedAt : Option String
  finishedAt : Option String
deriving DecidableEq, Repr

/-- Field access on the JSON-map view of a jobLogItem (json.Marshal followed
by json.Unmarshal into a string map in filterJobLogs); a JSON null or an
unknown key reads as the empty string. -/
def jobField (j : JobLogItem) : String → String
  | "workflow_uuid" => j.workflowUuid
  | "job_name" => j.jobName
  | "compute_backend" => j.computeBackend
  | "backend_job_id" => j.backendJobId
  | "docker_img" => j.dockerImg
  | "cmd" => j.cmd
  | "status" => j.status
  | "logs" => j.logs
  | "started_at" => j.startedAt.getD ""
  | "finished_at" => j.finishedAt.getD ""
  | _ => ""

/-- Modelled from the spec: the filterer.Filters container (pkg/filterer is
not part of the sources here).  A FilterSpec owns the declared single-valued
keys and a mapping from a single-valued key to its one effective value
(GetSingle); the spec fixes that a single-valued key holds at most one
effective value. -/
structure Filters where
  SingleFilterKeys : List String
  GetSingle : String → String

/-- Association-list lookup in the backend alias map
(config.ReanaComputeBackends maps a lowercased human alias to the internal
backend identifier; it is passed as a parameter here). -/
def backendsLookup (backends : List (String × String)) (k : String) : Option String :=
  match backends with
  | [] => none
  | (k2, v) :: rest => if k2 = k then some v else backendsLookup rest k

/-- The effective value of one single-valued filter key inside filterJobLogs:
the compute_backend value is first remapped through the backend alias table
after lowercasing (a Go map read of a missing key yields the zero value,
the empty string); all other keys are used as given. -/
def effectiveFilterValue (backends : List (String × String)) (filters : Filters)
    (k : String) : String :=
  let v := filters.GetSingle k
  if k = "compute_backend" then (backendsLookup backends (strToLower v)).getD "" else v

/-- The per-Record loop body of filterJobLogs: the Record is marked unwanted
as soon as some single-valued key has a non-empty (remapped) filter value
different from the Record field of the same name. -/
def jobUnwanted (backends : List (String × String)) (filters : Filters)
    (j : JobLogItem) : Bool :=
  filters.SingleFilterKeys.any (fun k =>
    let fv := effectiveFilterValue backends filters k
    fv ≠ "" && jobField j k ≠ fv)

/-- The unwantedLogs accumulator of filterJobLogs: the keys of the Records
marked for removal. -/
def unwantedLogs (backends : List (String × String)) (filters : Filters)
    (jobLogs : List (String × JobLogItem)) : List String :=
  (jobLogs.filter (fun kv => jobUnwanted backends filters kv.2)).map (fun kv => kv.1)

/-- filterJobLogs from cmd/logs.go: collect the keys of unwanted Records,
then delete those keys from the collection (the map is embedded as an
association list of job id and Record). -/
def filterJobLogs (backends : List (String × String)) (filters : Filters)
    (jobLogs : List (String × JobLogItem)) : List (String × JobLogItem) :=
  jobLogs.filter (fun kv => ¬ (unwantedLogs backends filters jobLogs).contains kv.1)

theorem any_filter_eq {α : Type} (p f : α → Bool) :
    ∀ (l : List α), (∀ x ∈ l, p x = false → f x = false) →
    l.any f = (l.filter p).any f := by
  intro l
  induction l with
  | nil => intro _; rfl
  | cons a t ih =>
    intro h
    have ih2 := ih (fun x hx => h x (List.mem_cons_of_mem a hx))
    rw [List.any_cons, List.filter_cons]
    cases hp : p a
    · rw [h a (List.mem_cons_self a t) hp, Bool.false_or,
        if_neg Bool.false_ne_true]
      exact ih2
    · rw [if_pos rfl, List.any_cons, ih2]

/-! ## Claims C2, C9, C10 on filterJobLogs -/

/-- Claim C2: a Record survives filterJobLogs iff it was in the collection
and, for every single-valued filter key whose effective (for compute_backend:
alias-remapped after lowercasing) filter value is non-empty, the Record field
of that name equals that value; equivalently a Record is removed iff it fails
some active filter (logical AND across keys). -/
theorem filterJobLogs_mem_iff (backends : List (String × String))
    (filters : Filters) (jobLogs : List (String × JobLogItem))
    (hnd : (jobLogs.map Prod.fst).Nodup) (kv : String × JobLogItem) :
    kv ∈ filterJobLogs backends filters jobLogs
      ↔ kv ∈ jobLogs ∧ ∀ k ∈ filters.SingleFilterKeys,
          effectiveFilterValue backends filters k ≠ "" →
          jobField kv.2 k = effectiveFilterValue backends filters k := by
  unfold filterJobLogs
  simp only [List.mem_filter, decide_not, Bool.not_eq_true']
  constructor
  · rintro ⟨hmem, hp⟩
    refine ⟨hmem, ?_⟩
    intro k hk hne
    by_contra hneq
    have hun : jobUnwanted backends filters kv.2 = true := by
      unfold jobUnwanted
      apply List.any_eq_true.mpr
      refine ⟨k, hk, ?_⟩
      simp [hne, hneq]
    have hin : kv.1 ∈ unwantedLogs backends filters jobLogs := by
      unfold unwantedLogs
      exact List.mem_map.mpr ⟨kv, List.mem_filter.mpr ⟨hmem, hun⟩, rfl⟩
    simp [hin] at hp
  · rintro ⟨hmem, hall⟩
    refine ⟨hmem, ?_⟩
    have hnc : kv.1 ∉ unwantedLogs backends filters jobLogs := by
      intro hin
      rcases List.mem_map.mp hin with ⟨kv2, hkv2, hfst⟩
      have hmem2 : kv2 ∈ jobLogs := (List.mem_filter.mp hkv2).1
      have hun2 : jobUnwanted backends filters kv2.2 = true :=
        (List.mem_filter.mp hkv2).2
      have heq : kv2 = kv := List.inj_on_of_nodup_map hnd hmem2 hmem hfst
      subst heq
      rcases List.any_eq_true.mp hun2 with ⟨k, hk, hcond⟩
      simp only [ne_eq, Bool.and_eq_true, decide_eq_true_eq,
        Bool.not_eq_true', decide_eq_false_iff_not] at hcond
      exact hcond.2 (hall k hk hcond.1)
    simp [hnc]

/-- Witness for C2: the spec example, a Record with compute_backend k8s
retained under the alias table entry kubernetes to k8s with filter value
kubernetes. -/
theorem filterJobLogs_mem_iff_witness :
    ("job1", (⟨"uuid1", "step1", "k8s", "bj1", "img", "cmd1", "finished", "",
        none, none⟩ : JobLogItem))
      ∈ filterJobLogs [("kubernetes", "k8s")]
        ⟨["compute_backend"], fun _ => "kubernetes"⟩
        [("job1", ⟨"uuid1", "step1", "k8s", "bj1", "img", "cmd1", "finished", "",
          none, none⟩)] := by
  refine (filterJobLogs_mem_iff [("kubernetes", "k8s")]
    ⟨["compute_backend"], fun _ => "kubernetes"⟩
    [("job1", ⟨"uuid1", "step1", "k8s", "bj1", "img", "cmd1", "finished", "",
      none, none⟩)] (by decide) _).mpr ⟨by simp, ?_⟩
  intro k hk hne
  have hkc : k = "compute_backend" := by simpa using hk
  subst hkc
  decide

/-- Claim C9: the only effect of filterJobLogs is the deletion of whole
entries from the collection: its result is a sublist of the input, so every
surviving entry (key and Record alike) is unchanged field-for-field. -/
theorem filterJobLogs_sublist (backends : List (String × String))
    (filters : Filters) (jobLogs : List (String × JobLogItem)) :
    List.Sublist (filterJobLogs backends filters jobLogs) jobLogs := by
  unfold filterJobLogs
  exact List.filter_sublist _

/-- Claim C10: when the lowercased compute_backend filter value has no entry
in the backend alias table, the remapped filter value is the empty string and
the compute_backend filter is inactive: filtering behaves exactly as if the
compute_backend key were absent, so no Record is removed on its account. -/
theorem filterJobLogs_unmapped_backend (backends : List (String × String))
    (filters : Filters) (jobLogs : List (String × JobLogItem))
    (h : backendsLookup backends (strToLower (filters.GetSingle "compute_backend"))
      = none) :
    effectiveFilterValue backends filters "compute_backend" = ""
    ∧ filterJobLogs backends filters jobLogs
      = filterJobLogs backends
          ⟨filters.SingleFilterKeys.filter (fun k => k ≠ "compute_backend"),
            filters.GetSingle⟩ jobLogs := by
  have heff : effectiveFilterValue backends filters "compute_backend" = "" := by
    unfold effectiveFilterValue
    simp [h]
  refine ⟨heff, ?_⟩
  have hun : ∀ j : JobLogItem, jobUnwanted backends filters j
      = jobUnwanted backends
        ⟨filters.SingleFilterKeys.filter (fun k => k ≠ "compute_backend"),
          filters.GetSingle⟩ j := by
    intro j
    unfold jobUnwanted
    apply any_filter_eq
    intro k hk hkc
    have hkc2 : k = "compute_backend" := by simpa using hkc
    subst hkc2
    simp [heff]
  have huw : unwantedLogs backends filters jobLogs
      = unwantedLogs backends
        ⟨filters.SingleFilterKeys.filter (fun k => k ≠ "compute_backend"),
          filters.GetSingle⟩ jobLogs := by
    unfold unwantedLogs
    congr 1
    apply List.filter_congr
    intro kv _
    rw [hun kv.2]
  unfold filterJobLogs
  rw [huw]

/-- Witness for C10 at a concrete input: an unmapped alias removes nothing. -/
theorem filterJobLogs_unmapped_backend_witness :
    effectiveFilterValue [] ⟨["compute_backend"], fun _ => "slurm"⟩
        "compute_backend" = ""
    ∧ filterJobLogs [] ⟨["compute_backend"], fun _ => "slurm"⟩
        [("job1", (⟨"u", "s1", "k8s", "b", "i", "c", "finished", "",
          none, none⟩ : JobLogItem))]
      = filterJobLogs []
          ⟨(["compute_backend"] : List String).filter
              (fun k => k ≠ "compute_backend"), fun _ => "slurm"⟩
          [("job1", ⟨"u", "s1", "k8s", "b", "i", "c", "finished", "",
            none, none⟩)] :=
  filterJobLogs_unmapped_backend [] ⟨["compute_backend"], fun _ => "slurm"⟩
    [("job1", ⟨"u", "s1", "k8s", "b", "i", "c", "finished", "", none, none⟩)]
    rfl

/-! ## Filter parsing: ParseFilterParameters (utils/utils.go)

The Go function prints a message and exits the process on the first offending
token; the embedding returns the error of that token instead.  The three exit
paths of the source are the three error constructors. -/

/-- GetRunStatuses from utils/utils.go. -/
def GetRunStatuses (includeDeleted : Bool) : List String :=
  let runStatuses := ["created", "running", "finished", "failed", "stopped",
    "queued", "pending"]
  if includeDeleted then runStatuses ++ ["deleted"] else runStatuses

inductive ParseError where
  | malformed
  | unknownKey (key : String)
  | invalidStatus (value : String)
deriving DecidableEq, Repr

/-- The message printed on each exit path of ParseFilterParameters. -/
def renderError : ParseError → String
  | .malformed =>
      "Error: Wrong input format. Please use --filter filter_name=filter_value"
  | .unknownKey k => "Error: Filter " ++ k ++ " is not valid"
  | .invalidStatus v => "Error: Input status value " ++ v ++ " is not valid. "

/-- strings.Contains with a one-character pattern, embedded character-wise. -/
def strContainsChar (t : String) (c : Char) : Bool := t.data.contains c

/-- strings.SplitN with separator "=" and limit 2, embedded character-wise;
the second component defaults to the empty string when no separator occurs
(that branch is unreachable in the source, which checks Contains first). -/
def splitEqAux : List Char → List Char × Option (List Char)
  | [] => ([], none)
  | c :: cs =>
      if c = '=' then ([], some cs)
      else
        let r := splitEqAux cs
        (c :: r.1, r.2)

def splitKV (t : String) : String × String :=
  let r := splitEqAux t.data
  (String.mk r.1, String.mk (r.2.getD []))

/-- The lowercased key of a token (ToLower of the part before the first =). -/
def keyOf (t : String) : String := strToLower (splitKV t).1

/-- The value of a token (the part after the first =). -/
def valOf (t : String) : String := (splitKV t).2

/-- The two name and value checks of the loop body: unknown key, then the
status value domain. -/
def checkPair (filterNames : List String) (name value : String) :
    Option ParseError :=
  if filterNames.contains name = false then some (.unknownKey name)
  else if (name == "status") && !((GetRunStatuses true).contains value) then
    some (.invalidStatus value)
  else none

/-- The classification of one raw token by the loop body: the first failing
check of the source, or none when the token passes all checks. -/
def classifyToken (filterNames : List String) (t : String) : Option ParseError :=
  if strContainsChar t '=' = false then some .malformed
  else checkPair filterNames (keyOf t) (valOf t)

/-- The Go map update searchFilters[name] = append(searchFilters[name], v),
on the association-list embedding of the map. -/
def insertAppend : List (String × List String) → String → String →
    List (String × List String)
  | [], k, v => [(k, [v])]
  | (k2, vs) :: rest, k, v =>
      if k2 == k then (k2, vs ++ [v]) :: rest
      else (k2, vs) :: insertAppend rest k v

/-- The token loop of ParseFilterParameters with its two accumulators. -/
def parseFilterLoop (filterNames : List String) :
    List String → List String → List (String × List String) →
    Except ParseError (List String × List (String × List String))
  | [], statusFilters, searchFilters => .ok (statusFilters, searchFilters)
  | value :: rest, statusFilters, searchFilters =>
      if strContainsChar value '=' = false then .error .malformed
      else
        if filterNames.contains (keyOf value) = false then
          .error (.unknownKey (keyOf value))
        else if (keyOf value == "status")
            && !((GetRunStatuses true).contains (valOf value)) then
          .error (.invalidStatus (valOf value))
        else if keyOf value == "status" then
          parseFilterLoop filterNames rest (statusFilters ++ [valOf value])
            searchFilters
        else
          parseFilterLoop filterNames rest statusFilters
            (insertAppend searchFilters (keyOf value) (valOf value))

/-- One character of the JSON string encoding (quotes and backslashes are the
escapes the embedded values can need). -/
def jsonEscapeChar (c : Char) : String :=
  if c = '"' then "\\\"" else if c = '\\' then "\\\\" else String.singleton c

def jsonQuote (s : String) : String :=
  "\"" ++ String.join (s.data.map jsonEscapeChar) ++ "\""

/-- Insertion into a key-sorted association list (json.Marshal serializes Go
map keys in sorted order). -/
def insertSorted (entry : String × List String) :
    List (String × List String) → List (String × List String)
  | [] => [entry]
  | e :: rest =>
      if entry.1 < e.1 then entry :: e :: rest else e :: insertSorted entry rest

def sortByKey : List (String × List String) → List (String × List String)
  | [] => []
  | e :: rest => insertSorted e (sortByKey rest)

/-- json.Marshal of the map from filter name to value list. -/
def marshalSearch (m : List (String × List String)) : String :=
  "\x7b" ++ String.intercalate ","
    ((sortByKey m).map (fun e =>
      jsonQuote e.1 ++ ":[" ++ String.intercalate "," (e.2.map jsonQuote) ++ "]"))
    ++ "\x7d"

/-- ParseFilterParameters from utils/utils.go: the token loop, then the
search-filter map serialized only when it is non-empty (the empty string
means absent, never an explicit empty object). -/
def ParseFilterParameters (filter : List String) (filterNames : List String) :
    Except ParseError (List String × String) :=
  match parseFilterLoop filterNames filter [] [] with
  | .error e => .error e
  | .ok (statusFilters, searchFilters) =>
      .ok (statusFilters,
        if searchFilters.isEmpty then "" else marshalSearch searchFilters)

deriving instance DecidableEq for Except

example : ParseFilterParameters ["status=failed", "name=test"] ["status", "name"]
    = .ok (["failed"], "\x7b\"name\":[\"test\"]\x7d") := by decide

example : ParseFilterParameters ["status=bogus"] ["status"]
    = .error (.invalidStatus "bogus") := by decide

example : ParseFilterParameters ["nokey"] ["status"] = .error .malformed := by
  decide

example : ParseFilterParameters ["foo=1"] ["status"]
    = .error (.unknownKey "foo") := by decide

example : ParseFilterParameters ["Status=deleted"] ["status"]
    = .ok (["deleted"], "") := by decide

/-! ## Spec-side descriptions of the parse results -/

/-- The per-token summarising step of the search-filter accumulator. -/
def searchStep (acc : List (String × List String)) (t : String) :
    List (String × List String) :=
  if keyOf t == "status" then acc else insertAppend acc (keyOf t) (valOf t)

/-- The values of the key status, in input order. -/
def statusValuesOf (filter : List String) : List String :=
  filter.filterMap (fun t => if keyOf t == "status" then some (valOf t) else none)

/-- The search-filter map accumulated over the whole token sequence. -/
def searchPairsOf (filter : List String) : List (String × List String) :=
  filter.foldl searchStep []

/-- The values carried by the tokens of one key, in input order. -/
def valuesOfKey (k : String) (filter : List String) : List String :=
  filter.filterMap (fun t => if keyOf t == k then some (valOf t) else none)

/-- Substring search, character-wise: whether the first list leads the
second. -/
def charsLead : List Char → List Char → Bool
  | [], _ => true
  | _ :: _, [] => false
  | a :: as, b :: bs => a == b && charsLead as bs

def charsHas (pat : List Char) : List Char → Bool
  | [] => charsLead pat []
  | c :: rest => charsLead pat (c :: rest) || charsHas pat rest

def strContainsSubstr (s sub : String) : Bool := charsHas sub.data s.data

/-! ## Loop lemmas for ParseFilterParameters -/

theorem parseFilterLoop_cons_some (names : List String) (t : String)
    (rest sts : List String) (sfs : List (String × List String)) (e : ParseError)
    (h : classifyToken names t = some e) :
    parseFilterLoop names (t :: rest) sts sfs = .error e := by
  unfold classifyToken checkPair at h
  simp only [parseFilterLoop]
  by_cases h1 : strContainsChar t '=' = false
  · rw [if_pos h1] at h ⊢
    injection h with h2
    rw [h2]
  · rw [if_neg h1] at h ⊢
    by_cases h2 : names.contains (keyOf t) = false
    · rw [if_pos h2] at h ⊢
      injection h with h3
      rw [h3]
    · rw [if_neg h2] at h ⊢
      by_cases h3 : ((keyOf t == "status")
          && !((GetRunStatuses true).contains (valOf t))) = true
      · rw [if_pos h3] at h ⊢
        injection h with h4
        rw [h4]
      · rw [if_neg h3] at h
        cases h

theorem parseFilterLoop_cons_none (names : List String) (t : String)
    (rest sts : List String) (sfs : List (String × List String))
    (h : classifyToken names t = none) :
    parseFilterLoop names (t :: rest) sts sfs
      = if keyOf t == "status" then
          parseFilterLoop names rest (sts ++ [valOf t]) sfs
        else
          parseFilterLoop names rest sts (insertAppend sfs (keyOf t) (valOf t)) := by
  unfold classifyToken checkPair at h
  simp only [parseFilterLoop]
  by_cases h1 : strContainsChar t '=' = false
  · rw [if_pos h1] at h
    cases h
  · rw [if_neg h1] at h ⊢
    by_cases h2 : names.contains (keyOf t) = false
    · rw [if_pos h2] at h
      cases h
    · rw [if_neg h2] at h ⊢
      by_cases h3 : ((keyOf t == "status")
          && !((GetRunStatuses true).contains (valOf t))) = true
      · rw [if_pos h3] at h
        cases h
      · rw [if_neg h3]

theorem parseFilterLoop_ok_iff (names : List String) :
    ∀ (ts sts : List String) (sfs : List (String × List String)),
    (∃ r, parseFilterLoop names ts sts sfs = .ok r)
      ↔ ∀ t ∈ ts, classifyToken names t = none := by
  intro ts
  induction ts with
  | nil =>
    intro sts sfs
    simp [parseFilterLoop]
  | cons t rest ih =>
    intro sts sfs
    cases hc : classifyToken names t with
    | some e =>
      rw [parseFilterLoop_cons_some names t rest sts sfs e hc]
      simp only [List.forall_mem_cons, hc]
      constructor
      · rintro ⟨r, hr⟩
        cases hr
      · rintro ⟨h1, _⟩
        cases h1
    | none =>
      rw [parseFilterLoop_cons_none names t rest sts sfs hc]
      by_cases hk : (keyOf t == "status") = true
      · rw [if_pos hk]
        simp [List.forall_mem_cons, hc, ih (sts ++ [valOf t]) sfs]
      · rw [if_neg hk]
        simp [List.forall_mem_cons, hc,
          ih sts (insertAppend sfs (keyOf t) (valOf t))]

theorem parseFilterLoop_ok_eq (names : List String) :
    ∀ (ts sts : List String) (sfs : List (String × List String)),
    (∀ t ∈ ts, classifyToken names t = none) →
    parseFilterLoop names ts sts sfs
      = .ok (sts ++ statusValuesOf ts, ts.foldl searchStep sfs) := by
  intro ts
  induction ts with
  | nil =>
    intro sts sfs _
    simp [parseFilterLoop, statusValuesOf]
  | cons t rest ih =>
    intro sts sfs hall
    have hc := hall t (List.mem_cons_self t rest)
    have hrest := fun u hu => hall u (List.mem_cons_of_mem t hu)
    rw [parseFilterLoop_cons_none names t rest sts sfs hc]
    by_cases hk : (keyOf t == "status") = true
    · have hk2 : keyOf t = "status" := by simpa using hk
      rw [if_pos hk, ih (sts ++ [valOf t]) sfs hrest]
      simp [statusValuesOf, searchStep, hk2, List.append_assoc]
    · have hk2 : ¬ keyOf t = "status" := by simpa using hk
      rw [if_neg hk, ih sts (insertAppend sfs (keyOf t) (valOf t)) hrest]
      simp [statusValuesOf, searchStep, hk2]

theorem parseFilterLoop_first_error (names : List String) (e : ParseError) :
    ∀ (pre : List String) (t : String) (rest sts : List String)
    (sfs : List (String × List String)),
    (∀ u ∈ pre, classifyToken names u = none) →
    classifyToken names t = some e →
    parseFilterLoop names (pre ++ t :: rest) sts sfs = .error e := by
  intro pre
  induction pre with
  | nil =>
    intro t rest sts sfs _ hsome
    exact parseFilterLoop_cons_some names t rest sts sfs e hsome
  | cons u pre ih =>
    intro t rest sts sfs hclean hsome
    have hu := hclean u (List.mem_cons_self u pre)
    rw [List.cons_append, parseFilterLoop_cons_none names u _ sts sfs hu]
    by_cases hk : (keyOf u == "status") = true
    · rw [if_pos hk]
      exact ih t rest _ _ (fun x hx => hclean x (List.mem_cons_of_mem u hx)) hsome
    · rw [if_neg hk]
      exact ih t rest _ _ (fun x hx => hclean x (List.mem_cons_of_mem u hx)) hsome

/-! ## Lookup characterisation of the search-filter accumulator -/

theorem insertAppend_lookup_self (k v : String) :
    ∀ (m : List (String × List String)),
    (insertAppend m k v).lookup k = some ((m.lookup k).getD [] ++ [v]) := by
  intro m
  induction m with
  | nil => simp [insertAppend, List.lookup]
  | cons e rest ih =>
    obtain ⟨k2, vs⟩ := e
    by_cases hk : k2 = k
    · subst hk
      simp [insertAppend, List.lookup]
    · have hb1 : (k2 == k) = false := beq_eq_false_iff_ne.mpr hk
      have hb2 : (k == k2) = false := beq_eq_false_iff_ne.mpr
        (fun hh => hk hh.symm)
      simp [insertAppend, List.lookup, hb1, hb2, ih]

theorem insertAppend_lookup_ne (k v k2 : String) (h : k2 ≠ k) :
    ∀ (m : List (String × List String)),
    (insertAppend m k v).lookup k2 = m.lookup k2 := by
  intro m
  induction m with
  | nil =>
    have hb : (k2 == k) = false := beq_eq_false_iff_ne.mpr h
    simp [insertAppend, List.lookup, hb]
  | cons e rest ih =>
    obtain ⟨k3, vs⟩ := e
    by_cases h3 : k3 = k
    · subst h3
      have hb : (k2 == k3) = false := beq_eq_false_iff_ne.mpr h
      simp [insertAppend, List.lookup, hb]
    · have hb3 : (k3 == k) = false := beq_eq_false_iff_ne.mpr h3
      by_cases h4 : k2 = k3
      · subst h4
        simp [insertAppend, List.lookup, hb3, ih]
      · have hb4 : (k2 == k3) = false := beq_eq_false_iff_ne.mpr h4
        simp [insertAppend, List.lookup, hb3, hb4, ih]

theorem insertAppend_ne_nil (m : List (String × List String)) (k v : String) :
    insertAppend m k v ≠ [] := by
  cases m with
  | nil => simp [insertAppend]
  | cons e rest =>
    obtain ⟨k2, vs⟩ := e
    by_cases hk : k2 == k
    · simp [insertAppend, hk]
    · simp [insertAppend, hk]

theorem foldl_searchStep_lookup (k : String) (hk : k ≠ "status") :
    ∀ (ts : List String) (acc : List (String × List String)),
    ((ts.foldl searchStep acc).lookup k)
      = (match acc.lookup k with
         | some vs0 => some (vs0 ++ valuesOfKey k ts)
         | none =>
             if valuesOfKey k ts = [] then none else some (valuesOfKey k ts)) := by
  intro ts
  induction ts with
  | nil =>
    intro acc
    cases hacc : acc.lookup k <;> simp [valuesOfKey, hacc]
  | cons t rest ih =>
    intro acc
    rw [List.foldl_cons]
    by_cases hs : (keyOf t == "status") = true
    · have hs2 : keyOf t = "status" := by simpa using hs
      have hstep : searchStep acc t = acc := by simp [searchStep, hs]
      have hne : ¬ (keyOf t = k) := by
        rw [hs2]
        exact fun hh => hk hh.symm
      rw [hstep, ih acc]
      cases hacc : acc.lookup k <;> simp [valuesOfKey, hne, hacc]
    · have hstep : searchStep acc t = insertAppend acc (keyOf t) (valOf t) := by
        simp [searchStep, hs]
      rw [hstep, ih _]
      by_cases hkk : keyOf t = k
      · rw [hkk, insertAppend_lookup_self k (valOf t) acc]
        cases hacc : acc.lookup k <;> simp [valuesOfKey, hkk, hacc]
      · rw [insertAppend_lookup_ne (keyOf t) (valOf t) k
          (fun hh => hkk hh.symm) acc]
        have hkk2 : ¬ (keyOf t = k) := hkk
        cases hacc : acc.lookup k <;> simp [valuesOfKey, hkk2, hacc]

theorem foldl_searchStep_ne_nil :
    ∀ (ts : List String) (acc : List (String × List String)),
    acc ≠ [] → ts.foldl searchStep acc ≠ [] := by
  intro ts
  induction ts with
  | nil =>
    intro acc h
    simpa using h
  | cons t rest ih =>
    intro acc h
    rw [List.foldl_cons]
    apply ih
    unfold searchStep
    by_cases hs : (keyOf t == "status") = true
    · rw [if_pos hs]
      exact h
    · rw [if_neg hs]
      exact insertAppend_ne_nil acc (keyOf t) (valOf t)

theorem foldl_searchStep_eq_nil_iff :
    ∀ (ts : List String) (acc : List (String × List String)),
    (ts.foldl searchStep acc = []) ↔ (acc = [] ∧ ∀ t ∈ ts, keyOf t = "status") := by
  intro ts
  induction ts with
  | nil =>
    intro acc
    simp
  | cons t rest ih =>
    intro acc
    rw [List.foldl_cons, ih]
    unfold searchStep
    by_cases hs : (keyOf t == "status") = true
    · have hs2 : keyOf t = "status" := by simpa using hs
      rw [if_pos hs]
      simp [List.forall_mem_cons, hs2]
    · have hs2 : ¬ keyOf t = "status" := by simpa using hs
      rw [if_neg hs]
      simp [List.forall_mem_cons, hs2, insertAppend_ne_nil acc (keyOf t) (valOf t)]

theorem marshalSearch_ne_empty (m : List (String × List String)) :
    marshalSearch m ≠ "" := by
  intro h
  have h2 := congrArg String.data h
  simp [marshalSearch] at h2

/-! ## Substring facts for the error messages -/

theorem charsLead_append (r : List Char) :
    ∀ (l : List Char), charsLead l (l ++ r) = true := by
  intro l
  induction l with
  | nil => rfl
  | cons a as ih => simp [charsLead, ih]

theorem charsHas_nil (l : List Char) : charsHas [] l = true := by
  cases l <;> simp [charsHas, charsLead]

theorem charsHas_append (pat : List Char) :
    ∀ (pre post : List Char), charsHas pat (pre ++ pat ++ post) = true := by
  intro pre
  induction pre with
  | nil =>
    intro post
    cases pat with
    | nil => simpa using charsHas_nil post
    | cons p ps =>
      have h1 := charsLead_append post (p :: ps)
      simp only [List.cons_append] at h1
      simp [charsHas, h1]
  | cons c pre ih =>
    intro post
    have ih2 := ih post
    rw [List.append_assoc] at ih2
    simp [charsHas, ih2]

theorem strContainsSubstr_sandwich (a v b : String) :
    strContainsSubstr (a ++ v ++ b) v = true := by
  unfold strContainsSubstr
  rw [String.data_append, String.data_append]
  exact charsHas_append v.data a.data b.data

/-! ## Claim C3 on parse success and failure -/

/-- Claim C3 counterexample: at the concrete input status=bogus with declared
key set containing status, every token contains = and every lowercased key is
declared, yet parsing fails (with the status-domain error), refuting the
claimed if-and-only-if success condition. -/
theorem ParseFilterParameters_iff_counterexample :
    strContainsChar "status=bogus" '=' = true
    ∧ keyOf "status=bogus" = "status"
    ∧ (["status"] : List String).contains (keyOf "status=bogus") = true
    ∧ ParseFilterParameters ["status=bogus"] ["status"]
        = Except.error (ParseError.invalidStatus "bogus") := by decide

/-- Claim C3 (amended): parsing succeeds iff every token contains =, has a
declared lowercased key and, when that key is status, carries a value in the
run-status domain; and it fails with the error of the first offending token:
the malformed-filter error when that token has no =, the unknown-key error
naming the key when the key is undeclared, at every position at which that
token is the first offender. -/
theorem ParseFilterParameters_classified (filter names : List String) :
    ((ParseFilterParameters filter names).isOk = true
      ↔ ∀ t ∈ filter, classifyToken names t = none)
    ∧ (∀ (pre : List String) (t : String) (rest : List String) (e : ParseError),
        filter = pre ++ t :: rest →
        (∀ u ∈ pre, classifyToken names u = none) →
        classifyToken names t = some e →
        ParseFilterParameters filter names = Except.error e) := by
  constructor
  · have hiff := parseFilterLoop_ok_iff names filter [] []
    cases hres : parseFilterLoop names filter [] [] with
    | error e =>
      rw [hres] at hiff
      simp only [ParseFilterParameters, hres]
      constructor
      · intro hok
        exact absurd hok (by simp [Except.isOk, Except.toBool])
      · intro hall
        rcases hiff.mpr hall with ⟨r, hr⟩
        cases hr
    | ok r =>
      obtain ⟨sts, sfs⟩ := r
      have hclean := hiff.mp ⟨(sts, sfs), hres⟩
      simp only [ParseFilterParameters, hres]
      simp only [Except.isOk, Except.toBool, true_iff]
      exact hclean
  · intro pre t rest e heq hclean hsome
    subst heq
    simp only [ParseFilterParameters]
    rw [parseFilterLoop_first_error names e pre t rest [] [] hclean hsome]

/-- Witness for the amended C3: the first-offender branch applied at a
concrete malformed token. -/
theorem ParseFilterParameters_classified_witness :
    ParseFilterParameters ["nokey"] [] = Except.error ParseError.malformed :=
  (ParseFilterParameters_classified ["nokey"] []).2 [] "nokey" []
    ParseError.malformed rfl (by simp) (by decide)

/-! ## Claim C4 on the status value domain -/

/-- Claim C4 counterexample: at the concrete value bogus the parse fails with
the invalid-status error whose printed message names the value but does not
contain the domain element created, refuting the claimed listing of the
permitted domain in the error. -/
theorem ParseFilterParameters_domain_message_counterexample :
    ParseFilterParameters ["status=bogus"] ["status"]
      = Except.error (ParseError.invalidStatus "bogus")
    ∧ renderError (ParseError.invalidStatus "bogus")
      = "Error: Input status value bogus is not valid. "
    ∧ "created" ∈ GetRunStatuses true
    ∧ strContainsSubstr (renderError (ParseError.invalidStatus "bogus"))
        "created" = false := by decide

/-- Claim C4 (amended): for the key status with domain GetRunStatuses true
(including deleted), every value outside the domain fails validation with the
InvalidFilterValueError, which names the offending value (the printed message
contains the value, though it does not list the permitted domain), and every
value in the domain passes validation without error. -/
theorem checkPair_status_domain (names : List String) (v : String)
    (hn : names.contains "status" = true) :
    (v ∈ GetRunStatuses true → checkPair names "status" v = none)
    ∧ (v ∉ GetRunStatuses true →
        checkPair names "status" v = some (ParseError.invalidStatus v)
        ∧ strContainsSubstr (renderError (ParseError.invalidStatus v)) v
            = true) := by
  have hmem : "status" ∈ names := by simpa using hn
  constructor
  · intro hv
    simp [checkPair, hmem, hv]
  · intro hv
    constructor
    · simp [checkPair, hmem, hv]
    · exact strContainsSubstr_sandwich "Error: Input status value " v
        " is not valid. "

/-- Witness for the amended C4: a value of the domain passes validation. -/
theorem checkPair_status_domain_witness :
    checkPair ["status"] "status" "created" = none :=
  (checkPair_status_domain ["status"] "created" (by decide)).1 (by decide)

/-! ## Claim C5 on the query partition -/

/-- Claim C5: on success, ParseFilterParameters returns the status values as
an ordered list in input order; every other declared key's values go, in
input order, into the search map, queried here through lookup; and the map is
serialized to a JSON object string only when at least one such key received a
value, the search string being empty otherwise (absent means unfiltered). -/
theorem ParseFilterParameters_partition (filter names : List String)
    (sts : List String) (sstr : String)
    (h : ParseFilterParameters filter names = Except.ok (sts, sstr)) :
    sts = statusValuesOf filter
    ∧ sstr = (if searchPairsOf filter = [] then ""
        else marshalSearch (searchPairsOf filter))
    ∧ (sstr = "" ↔ ∀ t ∈ filter, keyOf t = "status")
    ∧ ∀ k, k ≠ "status" →
        (searchPairsOf filter).lookup k
          = (if valuesOfKey k filter = [] then none
             else some (valuesOfKey k filter)) := by
  have hex : ∃ r, parseFilterLoop names filter [] [] = .ok r := by
    cases hres : parseFilterLoop names filter [] [] with
    | error e =>
      simp only [ParseFilterParameters, hres] at h
      cases h
    | ok r => exact ⟨r, rfl⟩
  have hclean := (parseFilterLoop_ok_iff names filter [] []).mp hex
  have hok := parseFilterLoop_ok_eq names filter [] [] hclean
  simp only [ParseFilterParameters, hok, Except.ok.injEq, Prod.mk.injEq] at h
  obtain ⟨h1, h2⟩ := h
  refine ⟨?_, ?_, ?_, ?_⟩
  · rw [← h1]
    simp
  · rw [← h2]
    simp [searchPairsOf, List.isEmpty_iff]
  · rw [← h2]
    constructor
    · intro hempty
      by_cases hnil : (List.foldl searchStep [] filter).isEmpty = true
      · have hn2 : List.foldl searchStep [] filter = [] := by
          simpa [List.isEmpty_iff] using hnil
        exact ((foldl_searchStep_eq_nil_iff filter []).mp hn2).2
      · rw [if_neg hnil] at hempty
        exact absurd hempty (marshalSearch_ne_empty _)
    · intro hall
      have hnil : List.foldl searchStep [] filter = [] :=
        (foldl_searchStep_eq_nil_iff filter []).mpr ⟨rfl, hall⟩
      simp [hnil]
  · intro k hk
    have hlu := foldl_searchStep_lookup k hk filter []
    simp only [searchPairsOf]
    rw [hlu]
    simp [List.lookup]

/-- Witness for C5 at a concrete status and name filter pair. -/
theorem ParseFilterParameters_partition_witness :
    (["failed"] : List String) = statusValuesOf ["status=failed", "name=test"]
    ∧ "\x7b\"name\":[\"test\"]\x7d"
      = (if searchPairsOf ["status=failed", "name=test"] = [] then ""
         else marshalSearch (searchPairsOf ["status=failed", "name=test"]))
    ∧ ("\x7b\"name\":[\"test\"]\x7d" = ""
        ↔ ∀ t ∈ ["status=failed", "name=test"], keyOf t = "status")
    ∧ ∀ k, k ≠ "status" →
        (searchPairsOf ["status=failed", "name=test"]).lookup k
          = (if valuesOfKey k ["status=failed", "name=test"] = [] then none
             else some (valuesOfKey k ["status=failed", "name=test"])) :=
  ParseFilterParameters_partition ["status=failed", "name=test"]
    ["status", "name"] ["failed"] "\x7b\"name\":[\"test\"]\x7d" (by decide)

/-! ## Disk usage: displayDuPayload (du command) -/

structure DiskUsageInfo where
  name : String
  sizeRaw : Int
  sizeHuman : String
deriving DecidableEq, Repr

/-- FilesBlacklist from utils/utils.go. -/
def FilesBlacklist : List String := [".git/", "/.git/"]

/-- HasAnyPrefix from utils/utils.go: whether some entry of the list leads
the string. -/
def hasAnyLeading (s : String) (leads : List String) : Bool :=
  leads.any (fun l => charsLead l.data s.data)

/-- displayDuPayload from the du command: error when the payload collection
is empty, otherwise the displayed table with one row per entry whose name is
not blacklisted, the size cell chosen by the humanReadable flag and the name
cell dotted. -/
def displayDuPayload (info : List DiskUsageInfo) (humanReadable : Bool) :
    Except String (List String × List (List Cell)) :=
  if info.length = 0 then .error "no files matching filter criteria"
  else
    .ok (["SIZE", "NAME"],
      info.filterMap (fun d =>
        if hasAnyLeading d.name FilesBlacklist then none
        else some [if humanReadable then Cell.str d.sizeHuman
            else Cell.int d.sizeRaw,
          Cell.str ("." ++ d.name)]))

/-- Claim C7 counterexample: a payload whose only entry is blacklisted leaves
zero displayable rows, yet the command succeeds and renders an empty table
instead of taking the EmptyResultError path. -/
theorem displayDuPayload_counterexample :
    displayDuPayload [⟨".git/config", 42, "42 KiB"⟩] false
      = Except.ok (["SIZE", "NAME"], []) := by decide

/-- Claim C7 (amended): the disk-usage command takes the EmptyResultError
path (no files matching filter criteria) exactly when the server-returned
collection is empty; rows removed only by the client-side blacklist filter do
not trigger it, so an all-blacklisted payload renders an empty table. -/
theorem displayDuPayload_empty_iff (info : List DiskUsageInfo) (hr : Bool) :
    displayDuPayload info hr = Except.error "no files matching filter criteria"
      ↔ info = [] := by
  unfold displayDuPayload
  by_cases h : info.length = 0
  · simp [h, List.length_eq_zero.mp h]
  · rw [if_neg h]
    constructor
    · intro hh
      cases hh
    · intro hh
      subst hh
      simp at h

/-! ## Logs display: displayHumanFriendlyLogs (cmd/logs.go) -/

/-- The logs struct of cmd/logs.go (the engine fields are displayed before
the job logs; the job logs map is the association-list embedding). -/
structure Logs where
  workflowLogs : Option String
  engineSpecific : Option String
  jobLogs : List (String × JobLogItem)

/-- The observable outcome of displayHumanFriendlyLogs that the claims are
about: the names listed in the missing-step diagnostic (none when no
diagnostic is printed) and the job logs that are displayed.  The source
function prints and returns nothing: it has no error path, and the command
returns nil after it, so the diagnostic is non-fatal by construction. -/
structure LogsDisplay where
  missingStepWarning : Option (List String)
  displayedJobs : List (String × JobLogItem)
deriving DecidableEq

/-- The returnedStepNames loop of displayHumanFriendlyLogs. -/
def returnedStepNames (jobLogs : List (String × JobLogItem)) : List String :=
  jobLogs.foldl (fun acc kv => acc ++ [kv.2.jobName]) []

/-- The missingStepNames loop of displayHumanFriendlyLogs. -/
def missingStepNames (steps returned : List String) : List String :=
  steps.foldl (fun acc st => if returned.contains st then acc else acc ++ [st]) []

/-- displayHumanFriendlyLogs from cmd/logs.go, restricted to the observable
outcome: the diagnostic is produced only when steps were requested and some
requested name is missing from the returned job names, and all job logs in
the collection are displayed. -/
def displayHumanFriendlyLogs (logs : Logs) (steps : List String) : LogsDisplay :=
  { missingStepWarning :=
      if steps.length > 0 then
        (if (missingStepNames steps (returnedStepNames logs.jobLogs)).length > 0
         then some (missingStepNames steps (returnedStepNames logs.jobLogs))
         else none)
      else none
    displayedJobs := logs.jobLogs }

theorem foldl_append_map {α β : Type} (f : α → β) :
    ∀ (l : List α) (acc : List β),
    l.foldl (fun a x => a ++ [f x]) acc = acc ++ l.map f := by
  intro l
  induction l with
  | nil => intro acc; simp
  | cons a t ih =>
    intro acc
    rw [List.foldl_cons, ih (acc ++ [f a])]
    simp

theorem foldl_missing_filter (returned : List String) :
    ∀ (steps : List String) (acc : List String),
    steps.foldl (fun acc st => if returned.contains st then acc else acc ++ [st])
        acc
      = acc ++ steps.filter (fun st => ¬ returned.contains st) := by
  intro steps
  induction steps with
  | nil => intro acc; simp
  | cons st rest ih =>
    intro acc
    rw [List.foldl_cons]
    by_cases hc : returned.contains st = true
    · have hmem : st ∈ returned := by simpa using hc
      rw [if_pos hc, ih acc]
      simp [List.filter_cons, hc, hmem]
    · have hmem : st ∉ returned := by simpa using hc
      rw [if_neg hc, ih (acc ++ [st])]
      simp [List.filter_cons, hc, hmem]

/-- Claim C8: for every requested step filter and returned job-log
collection, the command displays all returned job logs, and the missing-step
diagnostic lists exactly the requested names absent from the returned job
names when there is at least one (and no diagnostic otherwise); the source
function has no error path, so the diagnostic never aborts the command. -/
theorem displayHumanFriendlyLogs_missing_report (logs : Logs)
    (steps : List String) :
    (displayHumanFriendlyLogs logs steps).displayedJobs = logs.jobLogs
    ∧ (displayHumanFriendlyLogs logs steps).missingStepWarning
      = (if (steps.filter (fun st =>
            ¬ (logs.jobLogs.map (fun kv => kv.2.jobName)).contains st)) ≠ []
         then some (steps.filter (fun st =>
            ¬ (logs.jobLogs.map (fun kv => kv.2.jobName)).contains st))
         else none) := by
  have hret : returnedStepNames logs.jobLogs
      = logs.jobLogs.map (fun kv => kv.2.jobName) := by
    unfold returnedStepNames
    rw [foldl_append_map (fun kv => kv.2.jobName) logs.jobLogs []]
    simp
  have hmiss : missingStepNames steps (returnedStepNames logs.jobLogs)
      = steps.filter (fun st =>
          ¬ (logs.jobLogs.map (fun kv => kv.2.jobName)).contains st) := by
    unfold missingStepNames
    rw [foldl_missing_filter _ steps [], hret]
    simp
  refine ⟨rfl, ?_⟩
  unfold displayHumanFriendlyLogs
  simp only [hmiss]
  by_cases hs : steps.length > 0
  · rw [if_pos hs]
    by_cases hm : (steps.filter (fun st =>
        ¬ (logs.jobLogs.map (fun kv => kv.2.jobName)).contains st)) = []
    · rw [if_neg (by simpa using hm)]
      rw [hm]
      simp
    · have hlen : (steps.filter (fun st =>
          ¬ (logs.jobLogs.map (fun kv => kv.2.jobName)).contains st)).length > 0 := by
        cases hfe : (steps.filter (fun st =>
          ¬ (logs.jobLogs.map (fun kv => kv.2.jobName)).contains st)) with
        | nil => exact absurd hfe hm
        | cons a t => simp
      rw [if_pos hlen, if_pos hm]
  · rw [if_neg hs]
    have hsteps : steps = [] := by
      cases steps with
      | nil => rfl
      | cons a t => simp at hs
    subst hsteps
    simp

end ReanaClient
